import Mathlib

/-!
Verification of the text patch engine in `scripts/patch_klein_full_ft.py` and
`scripts/patch_disable_precache.py`.

Buffers are modelled as `List Char` (the scripts manipulate Python `str`
values).  Every operation of the two scripts is translated directly:
`str.replace` (which rewrites every non-overlapping occurrence, left to
right), `str.index` / `str.rfind`, the indentation sniffing loops, the
parenthesis-depth scan, the line-scan-with-continuation filter, and the
`re.search` call of the pre-cache patch (whose pattern is three literals
separated by `\s+`; since each following literal starts with a
non-whitespace character, the greedy `\s+` is equivalent to consuming the
maximal whitespace run).
-/

namespace PatchEngine

abbrev Buf := List Char

/-- Python `sub in s` membership test: does `pat` occur as a contiguous
substring of `l`? -/
def containsB (pat : Buf) : Buf → Bool
  | [] => pat.isPrefixOf []
  | c :: rest => pat.isPrefixOf (c :: rest) || containsB pat rest

/-- Python `s.index(pat)` / `s.find(pat)`: position of the first occurrence
of `pat`, or `none` (where CPython raises `ValueError` for `index`). -/
def idxOf? (pat : Buf) : Buf → Option Nat
  | [] => if pat.isPrefixOf ([] : Buf) then some 0 else none
  | c :: rest =>
    if pat.isPrefixOf (c :: rest) then some 0
    else (idxOf? pat rest).map (· + 1)

/-- Position of the last occurrence of `pat` (Python `s.rfind(pat)`,
with `none` standing for `-1`). -/
def lastIdxOf? (pat : Buf) : Buf → Option Nat
  | [] => if pat.isPrefixOf ([] : Buf) then some 0 else none
  | c :: rest =>
    match lastIdxOf? pat rest with
    | some i => some (i + 1)
    | none => if pat.isPrefixOf (c :: rest) then some 0 else none

/-- Python `s.index(pat, start)`: first occurrence at position `≥ start`. -/
def idxOfFrom? (pat : Buf) (B : Buf) (start : Nat) : Option Nat :=
  (idxOf? pat (B.drop start)).map (· + start)

/-- Python `s.rfind(pat, 0, stop)`: last occurrence lying entirely inside
`s[0:stop]`. -/
def lastIdxOfBefore? (pat : Buf) (B : Buf) (stop : Nat) : Option Nat :=
  lastIdxOf? pat (B.take stop)

/-- Fuel-driven worker for Python `str.replace`: rewrite every
non-overlapping occurrence of `old`, scanning left to right.  The fuel is
an upper bound on the length of the remaining text, so the `0, l => l`
branch is never taken when called through `pyReplace`. -/
def pyReplaceGo (old new : Buf) : Nat → Buf → Buf
  | _, [] => []
  | 0, l => l
  | fuel + 1, c :: rest =>
    if old.isPrefixOf (c :: rest) then
      new ++ pyReplaceGo old new fuel (rest.drop (old.length - 1))
    else
      c :: pyReplaceGo old new fuel rest

/-- Python `s.replace(old, new)`. -/
def pyReplace (old new l : Buf) : Buf := pyReplaceGo old new l.length l

/-- Python `str.split("\n")` on a character list. -/
def splitNl : Buf → List Buf
  | [] => [[]]
  | c :: rest =>
    if c = '\n' then [] :: splitNl rest
    else
      match splitNl rest with
      | [] => [[c]]
      | l :: ls => (c :: l) :: ls

/-- Python `"\n".join(lines)`. -/
def joinNl : List Buf → Buf
  | [] => []
  | [l] => l
  | l :: ls => l ++ '\n' :: joinNl ls

/-- The characters stripped by Python `str.strip()` with no argument. -/
def pyIsSpace (c : Char) : Bool :=
  c = ' ' || c = '\t' || c = '\n' || c = '\r' || c = '\x0b' || c = '\x0c'

/-- Python `str.strip()`. -/
def pyStrip (l : Buf) : Buf :=
  ((l.dropWhile pyIsSpace).reverse.dropWhile pyIsSpace).reverse

/-- `line.strip().endswith(c)` for a one-character suffix. -/
def stripEndsWith (l : Buf) (c : Char) : Bool :=
  (pyStrip l).getLast? = some c

/-- Characters collected by the indentation sniffing loops
(`if ch in " \t"`). -/
def isIndentCh (c : Char) : Bool := c = ' ' || c = '\t'

/-- `code.rfind("\n", 0, pos) + 1`: start of the line containing `pos`
(`rfind` returning `-1` collapses to `0`). -/
def lineStartAt (B : Buf) (pos : Nat) : Nat :=
  match lastIdxOf? ['\n'] (B.take pos) with
  | some i => i + 1
  | none => 0

/-- The indentation sniff used by every patch: walk to the start of the
line containing `pos`, then collect spaces and tabs. -/
def indentAt (B : Buf) (pos : Nat) : Buf :=
  (B.drop (lineStartAt B pos)).takeWhile isIndentCh

/-- The `paren_count` while-loop of patch 5: starting at offset `i`,
with running counter `count`, return the index of the `)` at which the
counter first returns to zero, or `none` when the loop runs off the end
of the text. -/
def parenScanAux : Int → Nat → Buf → Option Nat
  | _, _, [] => none
  | count, i, c :: rest =>
    if c = '(' then parenScanAux (count + 1) (i + 1) rest
    else if c = ')' then
      if count - 1 = 0 then some i else parenScanAux (count - 1) (i + 1) rest
    else parenScanAux count (i + 1) rest

/-- The scan of patch 5 started at buffer position `s`. -/
def parenScan (B : Buf) (s : Nat) : Option Nat :=
  parenScanAux 0 s (B.drop s)

/-- One diagnostic line printed by a patch: `applied k` is the success
message of patch `k`, `warning k` the `WARNING: could not find …` line. -/
inductive Diag where
  | applied : Nat → Diag
  | warning : Nat → Diag
deriving DecidableEq, Repr

end PatchEngine

namespace PatchEngine

/-! ### `scripts/patch_klein_full_ft.py` -/

def reqGradOld : Buf := "transformer.requires_grad_(False)".toList
def reqGradNew : Buf := "transformer.requires_grad_(True)".toList
def loraCfgAnchor : Buf := "transformer_lora_config = LoraConfig(".toList
def addAdapterAnchor : Buf := "transformer.add_adapter(transformer_lora_config)".toList
def loraComment : Buf :=
  "# Full fine-tuning: all transformer params are trainable (no LoRA)".toList
def saveSig : Buf := "def save_model_hook(models, weights, output_dir):".toList
def loadSigStart : Buf := "def load_model_hook(".toList
def loadSig : Buf := "def load_model_hook(models, input_dir):".toList
def registerLine : Buf :=
  "accelerator.register_save_state_pre_hook(save_model_hook)".toList
def slwAnchor : Buf := "Flux2KleinPipeline.save_lora_weights(".toList
def mainProcAnchor : Buf := "if accelerator.is_main_process:".toList
def upcastTok : Buf := "upcast_before_saving".toList
def addArgTok : Buf := "add_argument".toList
def gapAnchor : Buf := "\n\n    ".toList
def fourSp : Buf := "    ".toList

/-- The replacement text of patch 3 (`new_save_hook`), a function of the
sniffed indentation. -/
def newSaveHook (indent : Buf) : Buf :=
  let bodyIndent := indent ++ fourSp
  indent ++ saveSig ++ '\n' ::
  (bodyIndent ++ "if accelerator.is_main_process:".toList ++ '\n' ::
  (bodyIndent ++ "    for model in models:".toList ++ '\n' ::
  (bodyIndent ++ "        unwrapped = accelerator.unwrap_model(model)".toList ++ '\n' ::
  (bodyIndent ++ "        if isinstance(unwrapped, type(accelerator.unwrap_model(transformer))):".toList ++ '\n' ::
  (bodyIndent ++ "            unwrapped.save_pretrained(os.path.join(output_dir, \"transformer\"))".toList ++ '\n' ::
  (bodyIndent ++ "    if weights:".toList ++ '\n' ::
  (bodyIndent ++ "        weights.pop()".toList ++ '\n' :: '\n' :: [])))))))

/-- The replacement text of patch 4 (`new_load_hook`). -/
def newLoadHook (indent : Buf) : Buf :=
  let bodyIndent := indent ++ fourSp
  indent ++ loadSig ++ '\n' ::
  (bodyIndent ++ "while len(models) > 0:".toList ++ '\n' ::
  (bodyIndent ++ "    model = models.pop()".toList ++ '\n' ::
  (bodyIndent ++ "    if isinstance(accelerator.unwrap_model(model), type(accelerator.unwrap_model(transformer))):".toList ++ '\n' ::
  (bodyIndent ++ "        # Load full transformer weights".toList ++ '\n' ::
  (bodyIndent ++ "        pass  # Accelerator handles loading".toList ++ '\n' :: '\n' :: [])))))

/-- The replacement text of patch 5 (`new_final_save`). -/
def newFinalSave (indent : Buf) : Buf :=
  let bodyIndent := indent ++ fourSp
  indent ++ "if accelerator.is_main_process:".toList ++ '\n' ::
  (bodyIndent ++ "transformer_to_save = accelerator.unwrap_model(transformer)".toList ++ '\n' ::
  (bodyIndent ++ "transformer_to_save = transformer_to_save.to(weight_dtype)".toList ++ '\n' ::
  (bodyIndent ++ "pipeline = Flux2KleinPipeline.from_pretrained(".toList ++ '\n' ::
  (bodyIndent ++ "    args.pretrained_model_name_or_path,".toList ++ '\n' ::
  (bodyIndent ++ "    transformer=transformer_to_save,".toList ++ '\n' ::
  (bodyIndent ++ "    torch_dtype=weight_dtype,".toList ++ '\n' ::
  (bodyIndent ++ ")".toList ++ '\n' ::
  (bodyIndent ++ "pipeline.save_pretrained(args.output_dir)".toList ++ '\n' :: []))))))))

/-- Patch 1: unconditional `code.replace`; its diagnostic line is printed
whether or not the anchor occurred. -/
def klein1 (B : Buf) : Buf := pyReplace reqGradOld reqGradNew B

/-- Patch 2 (remove LoRA config).  Guarded by `if anchor in code`; inside
the guard, `code.index` on the `add_adapter` line and on the following
newline raise `ValueError` when absent, modelled as `none`. -/
def klein2 (B : Buf) : Option (Buf × List Diag) :=
  match idxOf? loraCfgAnchor B with
  | none => some (B, [])
  | some start =>
    match idxOf? addAdapterAnchor B with
    | none => none
    | some p =>
      match idxOfFrom? ['\n'] B p with
      | none => none
      | some adapterLineEnd =>
        let ls := lineStartAt B start
        let ind := indentAt B start
        some (B.take ls ++ ind ++ loraComment ++ '\n' :: B.drop (adapterLineEnd + 1),
              [Diag.applied 2])

/-- Patch 3 (replace `save_model_hook`). -/
def klein3 (B : Buf) : Option (Buf × List Diag) :=
  match idxOf? saveSig B with
  | none => some (B, [])
  | some funcStart =>
    match idxOfFrom? loadSigStart B (funcStart + 1) with
    | none => none
    | some loadHookStart =>
      let loadHookLineStart := lineStartAt B loadHookStart
      let saveLineStart := lineStartAt B funcStart
      let ind := indentAt B funcStart
      some (B.take saveLineStart ++ newSaveHook ind ++ B.drop loadHookLineStart,
            [Diag.applied 3])

/-- Patch 4 (replace `load_model_hook`). -/
def klein4 (B : Buf) : Option (Buf × List Diag) :=
  match idxOf? loadSig B with
  | none => some (B, [])
  | some funcStart =>
    let endIdx? :=
      if containsB registerLine B then idxOfFrom? registerLine B funcStart
      else (idxOfFrom? gapAnchor B (funcStart + loadSig.length)).map (· + 1)
    match endIdx? with
    | none => none
    | some endIdx =>
      let loadLineStart := lineStartAt B funcStart
      let endLineStart := lineStartAt B endIdx
      let ind := indentAt B funcStart
      some (B.take loadLineStart ++ newLoadHook ind ++ B.drop endLineStart,
            [Diag.applied 4])

/-- Patch 5 (replace final save logic); both `rfind` results are compared
with `> 0`, so an anchor at position `0` also skips the patch. -/
def klein5 (B : Buf) : Option (Buf × List Diag) :=
  match lastIdxOf? slwAnchor B with
  | none => some (B, [])
  | some lastSave =>
    if lastSave > 0 then
      match lastIdxOfBefore? mainProcAnchor B lastSave with
      | none => some (B, [])
      | some mpc =>
        if mpc > 0 then
          let blockLineStart := lineStartAt B mpc
          let ind := indentAt B mpc
          match parenScan B lastSave with
          | none => none
          | some closeIdx =>
            match idxOfFrom? ['\n'] B closeIdx with
            | none => none
            | some nlIdx =>
              some (B.take blockLineStart ++ newFinalSave ind ++ B.drop (nlIdx + 1),
                    [Diag.applied 5])
        else some (B, [])
    else some (B, [])

/-- One line of patch 6's loop triggers suppression when it contains both
tokens.  (The `_collate_lora_metadata` branch of the loop only assigns
`skip_continuation = False` in a state where it is already `False` and
then falls through to the append, so it has no effect and is omitted.) -/
def lineTriggers (l : Buf) : Bool :=
  containsB upcastTok l && containsB addArgTok l

/-- The `skip_continuation` state machine of patch 6 over the split lines.
While suppressing, the current line is always dropped and suppression
continues exactly when the stripped line ends with a comma. -/
def scanLines : Bool → List Buf → List Buf
  | _, [] => []
  | true, l :: rest => scanLines (stripEndsWith l ',') rest
  | false, l :: rest =>
    if lineTriggers l then scanLines true rest
    else l :: scanLines false rest

/-- Patch 6: split on newlines, filter, re-join; its diagnostic is printed
unconditionally. -/
def klein6 (B : Buf) : Buf := joinNl (scanLines false (splitNl B))

/-- The whole `patch_klein_full_ft.py` run on an in-memory buffer:
`none` models an uncaught `ValueError` (the script dies before writing
`dst`); `some (buffer, report)` models the final write plus the printed
per-patch diagnostic lines (patches 1 and 6 print unconditionally;
patches 2–5 print only when they apply). -/
def kleinRun (B : Buf) : Option (Buf × List Diag) :=
  match klein2 (klein1 B) with
  | none => none
  | some (B2, r2) =>
    match klein3 B2 with
    | none => none
    | some (B3, r3) =>
      match klein4 B3 with
      | none => none
      | some (B4, r4) =>
        match klein5 B4 with
        | none => none
        | some (B5, r5) =>
          some (klein6 B5,
            Diag.applied 1 :: (r2 ++ r3 ++ r4 ++ r5 ++ [Diag.applied 6]))

end PatchEngine

namespace PatchEngine

/-! ### `scripts/patch_disable_precache.py` -/

def precompOld : Buf :=
  "precompute_latents = args.cache_latents or train_dataset.custom_instance_prompts".toList
def precompNew : Buf :=
  "precompute_latents = False  # patched: compute on-the-fly to avoid OOM".toList
def cleanupOld : Buf :=
  "text_encoding_pipeline = text_encoding_pipeline.to(\"cpu\")".toList
def cleanupNew : Buf :=
  "# patched: keep text_encoding_pipeline for on-the-fly computation\n    # text_encoding_pipeline = text_encoding_pipeline.to(\"cpu\")".toList
def delOld : Buf := "del text_encoder, tokenizer".toList
def delNew : Buf :=
  "# patched: keep text_encoder and tokenizer for on-the-fly computation\n    # del text_encoder, tokenizer".toList

def reLit1 : Buf := "if train_dataset.custom_instance_prompts:".toList
def reLit2 : Buf := "prompt_embeds = prompt_embeds_cache[step]".toList
def reLit3 : Buf := "text_ids = text_ids_cache[step]".toList

/-- Match length of the precache-3 regex at the head of `l`.  The pattern
is `reLit1 \s+ reLit2 \s+ reLit3` (with `.` and brackets escaped); both
`\s+` gaps are equivalent to a maximal non-empty whitespace run because
the literal after each gap starts with a non-whitespace character. -/
def reMatchLen (l : Buf) : Option Nat :=
  if reLit1.isPrefixOf l then
    let r1 := l.drop reLit1.length
    let w1 := r1.takeWhile pyIsSpace
    if w1.length = 0 then none else
    let r2 := r1.drop w1.length
    if reLit2.isPrefixOf r2 then
      let r3 := r2.drop reLit2.length
      let w2 := r3.takeWhile pyIsSpace
      if w2.length = 0 then none else
      let r4 := r3.drop w2.length
      if reLit3.isPrefixOf r4 then
        some (reLit1.length + w1.length + reLit2.length + w2.length + reLit3.length)
      else none
    else none
  else none

/-- `re.search`: leftmost match, returning `(match.start(), match.end())`.
(The pattern cannot match the empty text since it begins with a literal.) -/
def reSearchAux : Nat → Buf → Option (Nat × Nat)
  | _, [] => none
  | i, c :: rest =>
    match reMatchLen (c :: rest) with
    | some n => some (i, i + n)
    | none => reSearchAux (i + 1) rest

def reSearch (B : Buf) : Option (Nat × Nat) := reSearchAux 0 B

/-- The replacement text of precache-3, a function of the sniffed
indentation. -/
def precacheRepl (indent : Buf) : Buf :=
  "if train_dataset.custom_instance_prompts:".toList ++ '\n' ::
  (indent ++ "    with torch.no_grad():".toList ++ '\n' ::
  (indent ++ "        with offload_models(text_encoding_pipeline, device=accelerator.device, offload=args.offload):".toList ++ '\n' ::
  (indent ++ "            prompt_embeds, text_ids = compute_text_embeddings(batch[\"prompts\"], text_encoding_pipeline)".toList)))

/-- Patch precache-1; prints one line either way. -/
def precache1 (B : Buf) : Buf × List Diag :=
  if containsB precompOld B then (pyReplace precompOld precompNew B, [Diag.applied 1])
  else (B, [Diag.warning 1])

/-- Patch precache-2. -/
def precache2 (B : Buf) : Buf × List Diag :=
  if containsB cleanupOld B then (pyReplace cleanupOld cleanupNew B, [Diag.applied 2])
  else (B, [Diag.warning 2])

/-- Patch precache-2b (numbered 3 in the report). -/
def precache2b (B : Buf) : Buf × List Diag :=
  if containsB delOld B then (pyReplace delOld delNew B, [Diag.applied 3])
  else (B, [Diag.warning 3])

/-- Patch precache-3 (numbered 4 in the report): regex splice. -/
def precache3 (B : Buf) : Buf × List Diag :=
  match reSearch B with
  | none => (B, [Diag.warning 4])
  | some (s, e) =>
    let ind := indentAt B s
    (B.take s ++ precacheRepl ind ++ B.drop e, [Diag.applied 4])

/-- The whole `patch_disable_precache.py` run: total, one diagnostic per
patch. -/
def precacheRun (B : Buf) : Buf × List Diag :=
  let s1 := precache1 B
  let s2 := precache2 s1.1
  let s3 := precache2b s2.1
  let s4 := precache3 s3.1
  (s4.1, s1.2 ++ s2.2 ++ s3.2 ++ s4.2)

/-- `if b then applied k else warning k`: the single diagnostic line of a
disable-precache patch. -/
def diagOf (k : Nat) (b : Bool) : Diag :=
  if b then Diag.applied k else Diag.warning k

end PatchEngine

namespace PatchEngine

/-! ### Specification-level substring relations

`PreOf s t` / `SufOf s t` / `Sub s t`: `s` is a prefix / suffix /
contiguous substring of `t`.  `containsB` and `List.isPrefixOf` are the
executable counterparts. -/

def PreOf (s t : Buf) : Prop := ∃ u, t = s ++ u

def SufOf (s t : Buf) : Prop := ∃ u, t = u ++ s

def Sub (s t : Buf) : Prop := ∃ u v, t = u ++ (s ++ v)

/-- `noTailHead a b`: no non-empty suffix of `a` is a prefix of `b`
(executable overlap check between two fixed anchor strings). -/
def noTailHead (a b : Buf) : Bool :=
  (List.range a.length).all fun k => !((a.drop k).isPrefixOf b)

/-- `noHeadTail a b`: no non-empty prefix of `a` is a suffix of `b`. -/
def noHeadTail (a b : Buf) : Bool :=
  (List.range a.length).all fun k => !((a.take (k + 1)).isSuffixOf b)

/-- The depth contribution of a character list to the `paren_count`
while-loop of patch 5. -/
def parenDelta : Buf → Int
  | [] => 0
  | c :: rest => (if c = '(' then 1 else if c = ')' then -1 else 0) + parenDelta rest

end PatchEngine

namespace PatchEngine

/-! ### Concrete buffers used as witnesses and counterexamples -/

/-- A buffer containing none of the anchors of either patch set. -/
def tinyBuf : Buf := "x\n".toList

/-- The five-line example of the specification's upcast-deletion test:
`add_argument` and `upcast_before_saving` sit on different lines. -/
def fiveBuf : Buf :=
  "parser.add_argument(\n    \"--upcast_before_saving\",\n    action=\"store_true\",\n)\nnext_line_kept = True".toList

/-- A buffer whose trigger tokens do share one line, for the
continuation-scan witness. -/
def oneLinePre : List Buf := ["keep".toList]
def oneLineTrig : Buf := "parser.add_argument(\"--upcast_before_saving\",".toList
def oneLineMid : List Buf := ["    action=\"store_true\",".toList]
def oneLineTerm : Buf := ")".toList
def oneLinePost : List Buf := ["next_line_kept = True".toList]
def oneLineBuf : Buf :=
  "keep\nparser.add_argument(\"--upcast_before_saving\",\n    action=\"store_true\",\n)\nnext_line_kept = True".toList

/-- The specification's nested-parentheses example, prefixed so that the
anchor sits at a positive offset. -/
def parenBuf : Buf :=
  "x = Flux2KleinPipeline.save_lora_weights(bar(1,2), baz(3))\n".toList

/-- A minimal stand-in training script for the end-to-end scenario. -/
def miniBuf : Buf :=
  "import x\ntransformer.requires_grad_(False)\nprint(1)\n".toList

/-- Two occurrences of patch 1's anchor. -/
def dupBuf : Buf := reqGradOld ++ '\n' :: reqGradOld

/-- A buffer consisting of exactly precache-2's anchor. -/
def precacheSelfBuf : Buf := cleanupOld

/-- A buffer containing patch 2's guard anchor but not the
`add_adapter` line. -/
def loraOnlyBuf : Buf := loraCfgAnchor ++ ['\n']

def eightSp : Buf := "        ".toList

/-- precache-2's anchor indented by eight spaces. -/
def indBuf : Buf := eightSp ++ cleanupOld

/-- A buffer matching precache-3's regex with four-space indentation. -/
def reBuf : Buf :=
  "    if train_dataset.custom_instance_prompts:\n        prompt_embeds = prompt_embeds_cache[step]\n        text_ids = text_ids_cache[step]\nrest".toList

end PatchEngine

namespace PatchEngine

/-! ### Bridging the executable string tests to the relations -/

theorem isPrefixOf_true_iff {s t : Buf} : s.isPrefixOf t = true ↔ PreOf s t := by
  induction s generalizing t with
  | nil => simp [List.isPrefixOf, PreOf]
  | cons c s ih =>
    cases t with
    | nil =>
      simp only [List.isPrefixOf, PreOf]
      constructor
      · intro h; cases h
      · rintro ⟨u, hu⟩; cases hu
    | cons d t =>
      simp only [List.isPrefixOf, Bool.and_eq_true, beq_iff_eq, ih, PreOf]
      constructor
      · rintro ⟨rfl, u, rfl⟩; exact ⟨u, rfl⟩
      · rintro ⟨u, hu⟩
        injection hu with h1 h2
        exact ⟨h1.symm, u, h2⟩

theorem isPrefixOf_false_iff {s t : Buf} : s.isPrefixOf t = false ↔ ¬ PreOf s t := by
  rw [← isPrefixOf_true_iff]
  cases s.isPrefixOf t <;> simp

theorem sufOf_iff_reverse {s t : Buf} : SufOf s t ↔ PreOf s.reverse t.reverse := by
  constructor
  · rintro ⟨u, rfl⟩; exact ⟨u.reverse, by simp⟩
  · rintro ⟨u, hu⟩
    refine ⟨u.reverse, ?_⟩
    have := congrArg List.reverse hu
    simpa using this

theorem isSuffixOf_true_iff {s t : Buf} : s.isSuffixOf t = true ↔ SufOf s t := by
  rw [List.isSuffixOf, isPrefixOf_true_iff, sufOf_iff_reverse]

theorem containsB_true_iff {s t : Buf} : containsB s t = true ↔ Sub s t := by
  induction t with
  | nil =>
    simp only [containsB, isPrefixOf_true_iff, Sub, PreOf]
    constructor
    · rintro ⟨u, hu⟩; exact ⟨[], u, hu⟩
    · rintro ⟨u, v, huv⟩
      rcases List.append_eq_nil.mp huv.symm with ⟨rfl, h2⟩
      exact ⟨v, by simpa using huv⟩
  | cons c rest ih =>
    simp only [containsB, Bool.or_eq_true, isPrefixOf_true_iff, ih]
    constructor
    · rintro (⟨u, hu⟩ | ⟨u, v, huv⟩)
      · exact ⟨[], u, hu⟩
      · exact ⟨c :: u, v, by simp [huv]⟩
    · rintro ⟨u, v, huv⟩
      cases u with
      | nil => exact Or.inl ⟨v, by simpa using huv⟩
      | cons d u =>
        injection huv with h1 h2
        exact Or.inr ⟨u, v, h2⟩

theorem containsB_false_iff {s t : Buf} : containsB s t = false ↔ ¬ Sub s t := by
  rw [← containsB_true_iff]
  cases containsB s t <;> simp

/-! ### Basic algebra of the substring relations -/

theorem preOf_nil (t : Buf) : PreOf [] t := ⟨t, rfl⟩

theorem sub_of_preOf {s t : Buf} (h : PreOf s t) : Sub s t := by
  rcases h with ⟨u, rfl⟩; exact ⟨[], u, rfl⟩

theorem sub_of_sufOf {s t : Buf} (h : SufOf s t) : Sub s t := by
  rcases h with ⟨u, rfl⟩; exact ⟨u, [], by simp⟩

theorem sub_refl (s : Buf) : Sub s s := ⟨[], [], by simp⟩

theorem sub_cons {s t : Buf} (c : Char) (h : Sub s t) : Sub s (c :: t) := by
  rcases h with ⟨u, v, rfl⟩; exact ⟨c :: u, v, rfl⟩

theorem sub_append_left {s t : Buf} (u : Buf) (h : Sub s t) : Sub s (u ++ t) := by
  rcases h with ⟨a, b, rfl⟩; exact ⟨u ++ a, b, by simp⟩

theorem sub_append_right {s t : Buf} (u : Buf) (h : Sub s t) : Sub s (t ++ u) := by
  rcases h with ⟨a, b, rfl⟩; exact ⟨a, b ++ u, by simp⟩

theorem sub_trans {s t r : Buf} (h1 : Sub s t) (h2 : Sub t r) : Sub s r := by
  rcases h1 with ⟨a, b, rfl⟩
  rcases h2 with ⟨c, d, rfl⟩
  exact ⟨c ++ a, b ++ d, by simp⟩

theorem sub_of_sub_drop {s t : Buf} (k : Nat) (h : Sub s (t.drop k)) : Sub s t := by
  refine sub_trans h (sub_of_sufOf ⟨t.take k, by simp⟩)

theorem sub_nil_elim {s : Buf} (h : Sub s []) : s = [] := by
  rcases h with ⟨u, v, huv⟩
  rcases List.append_eq_nil.mp huv.symm with ⟨rfl, h2⟩
  exact (List.append_eq_nil.mp h2).1

theorem sub_cons_elim {s t : Buf} {c : Char} (h : Sub s (c :: t)) :
    PreOf s (c :: t) ∨ Sub s t := by
  rcases h with ⟨u, v, huv⟩
  cases u with
  | nil => exact Or.inl ⟨v, by simpa using huv⟩
  | cons d u =>
    injection huv with h1 h2
    exact Or.inr ⟨u, v, h2⟩

theorem preOf_append_cases {s a b : Buf} (h : PreOf s (a ++ b)) :
    PreOf s a ∨ ∃ v, s = a ++ v ∧ PreOf v b := by
  induction a generalizing s with
  | nil => exact Or.inr ⟨s, by simp, by simpa using h⟩
  | cons c a ih =>
    cases s with
    | nil => exact Or.inl (preOf_nil _)
    | cons d s =>
      rcases h with ⟨u, hu⟩
      injection hu with h1 h2
      subst h1
      rcases ih ⟨u, h2⟩ with hpre | ⟨v, rfl, hv⟩
      · rcases hpre with ⟨w, hw⟩
        exact Or.inl ⟨w, by rw [hw]; rfl⟩
      · exact Or.inr ⟨v, by simp, hv⟩

theorem preOf_of_preOf_le {a b t : Buf} (ha : PreOf a t) (hb : PreOf b t)
    (h : a.length ≤ b.length) : PreOf a b := by
  rcases hb with ⟨u, rfl⟩
  rcases preOf_append_cases ha with h1 | ⟨v, hav, _⟩
  · exact h1
  · have hlen : v.length = 0 := by
      have := congrArg List.length hav
      simp at this
      omega
    have hv0 : v = [] := List.length_eq_zero.mp hlen
    subst hv0
    have hab : a = b := by simpa using hav
    exact ⟨[], by simp [hab]⟩

theorem sub_append_cases {s a b : Buf} (h : Sub s (a ++ b)) :
    Sub s a ∨ Sub s b ∨
      ∃ u v, s = u ++ v ∧ u ≠ [] ∧ v ≠ [] ∧ SufOf u a ∧ PreOf v b := by
  induction a generalizing s with
  | nil => exact Or.inr (Or.inl (by simpa using h))
  | cons c a ih =>
    have h' : Sub s (c :: (a ++ b)) := by simpa using h
    rcases sub_cons_elim h' with hp | hs
    · cases s with
      | nil => exact Or.inl (sub_of_preOf (preOf_nil _))
      | cons d s =>
        rcases hp with ⟨u, hu⟩
        injection hu with h1 h2
        subst h1
        rcases preOf_append_cases (⟨u, h2⟩ : PreOf s (a ++ b)) with hsa | ⟨v, rfl, hv⟩
        · rcases hsa with ⟨w, hw⟩
          exact Or.inl ⟨[], w, by simp [hw]⟩
        · rcases eq_or_ne v [] with rfl | hv0
          · exact Or.inl ⟨[], [], by simp⟩
          · exact Or.inr (Or.inr ⟨c :: a, v, by simp, by simp, hv0, ⟨[], rfl⟩, hv⟩)
    · rcases ih hs with h1 | h2 | ⟨u, v, rfl, hu0, hv0, hsuf, hv⟩
      · exact Or.inl (sub_cons c h1)
      · exact Or.inr (Or.inl h2)
      · rcases hsuf with ⟨w, rfl⟩
        exact Or.inr (Or.inr ⟨u, v, rfl, hu0, hv0, ⟨c :: w, by simp⟩, hv⟩)

theorem sufOf_eq_drop {q a : Buf} (h : SufOf q a) :
    q = a.drop (a.length - q.length) := by
  rcases h with ⟨u, rfl⟩
  simp

theorem preOf_eq_take {q a : Buf} (h : PreOf q a) :
    q = a.take q.length := by
  rcases h with ⟨u, rfl⟩
  simp

/-- Unfold `noTailHead` into its specification. -/
theorem noTailHead_spec {a b q : Buf} (h : noTailHead a b = true)
    (hq : q ≠ []) (hsuf : SufOf q a) (hpre : PreOf q b) : False := by
  have hd := sufOf_eq_drop hsuf
  have hk : a.length - q.length < a.length := by
    have : q.length ≤ a.length := by
      rcases hsuf with ⟨u, rfl⟩; simp
    have : 0 < q.length := List.length_pos.mpr hq
    omega
  have := (List.all_eq_true.mp h) (a.length - q.length) (List.mem_range.mpr hk)
  rw [← hd] at this
  simp only [Bool.not_eq_true'] at this
  exact (isPrefixOf_false_iff.mp this) hpre

/-- Unfold `noHeadTail` into its specification. -/
theorem noHeadTail_spec {a b q : Buf} (h : noHeadTail a b = true)
    (hq : q ≠ []) (hpre : PreOf q a) (hsuf : SufOf q b) : False := by
  have ht := preOf_eq_take hpre
  have hqlen : 0 < q.length := List.length_pos.mpr hq
  have hle : q.length ≤ a.length := by
    rcases hpre with ⟨u, rfl⟩; simp
  have hk : q.length - 1 < a.length := by omega
  have := (List.all_eq_true.mp h) (q.length - 1) (List.mem_range.mpr hk)
  have hq1 : q.length - 1 + 1 = q.length := by omega
  rw [hq1, ← ht] at this
  simp only [Bool.not_eq_true'] at this
  rw [← Bool.not_eq_true] at this
  exact this (isSuffixOf_true_iff.mpr hsuf)

end PatchEngine

namespace PatchEngine

/-! ### Behaviour of `pyReplace` (Python `str.replace`) -/

theorem bool_eq_false {b : Bool} (h : ¬ b = true) : b = false := by
  cases b
  · rfl
  · exact absurd rfl h

theorem pyReplaceGo_zero (old new t : Buf) : pyReplaceGo old new 0 t = t := by
  cases t <;> rfl

theorem pyReplaceGo_nil (old new : Buf) (fuel : Nat) :
    pyReplaceGo old new fuel [] = [] := by
  cases fuel <;> rfl

theorem pyReplaceGo_cons_pos {old : Buf} (new : Buf) {c : Char} {rest : Buf} (fuel : Nat)
    (h : old.isPrefixOf (c :: rest) = true) :
    pyReplaceGo old new (fuel + 1) (c :: rest) =
      new ++ pyReplaceGo old new fuel (rest.drop (old.length - 1)) := by
  simp [pyReplaceGo, h]

theorem pyReplaceGo_cons_neg {old : Buf} (new : Buf) {c : Char} {rest : Buf} (fuel : Nat)
    (h : old.isPrefixOf (c :: rest) = false) :
    pyReplaceGo old new (fuel + 1) (c :: rest) = c :: pyReplaceGo old new fuel rest := by
  simp [pyReplaceGo, h]

/-- A buffer with no occurrence of `old` is returned unchanged. -/
theorem pyReplaceGo_of_not_sub {old : Buf} (new : Buf) (fuel : Nat) :
    ∀ {t : Buf}, ¬ Sub old t → pyReplaceGo old new fuel t = t := by
  induction fuel with
  | zero => intro t _; exact pyReplaceGo_zero _ _ _
  | succ fuel ih =>
    intro t h
    cases t with
    | nil => exact pyReplaceGo_nil _ _ _
    | cons c rest =>
      have hpre : old.isPrefixOf (c :: rest) = false := by
        rw [isPrefixOf_false_iff]
        exact fun hp => h (sub_of_preOf hp)
      rw [pyReplaceGo_cons_neg new fuel hpre, ih (fun hs => h (sub_cons c hs))]

theorem pyReplace_of_not_sub {old new t : Buf} (h : ¬ Sub old t) :
    pyReplace old new t = t :=
  pyReplaceGo_of_not_sub new t.length h

/-- When `old` occurs, the replacement text `new` occurs in the output. -/
theorem sub_new_pyReplaceGo {old new : Buf} (hold : old ≠ []) (fuel : Nat) :
    ∀ {t : Buf}, Sub old t → t.length ≤ fuel →
      Sub new (pyReplaceGo old new fuel t) := by
  induction fuel with
  | zero =>
    intro t hsub hlen
    have ht : t = [] := List.length_eq_zero.mp (Nat.le_zero.mp hlen)
    subst ht
    exact absurd (sub_nil_elim hsub) hold
  | succ fuel ih =>
    intro t hsub hlen
    cases t with
    | nil => exact absurd (sub_nil_elim hsub) hold
    | cons c rest =>
      by_cases hpre : old.isPrefixOf (c :: rest) = true
      · rw [pyReplaceGo_cons_pos new fuel hpre]
        exact sub_of_preOf ⟨_, rfl⟩
      · have hpre' : old.isPrefixOf (c :: rest) = false := bool_eq_false hpre
        rcases sub_cons_elim hsub with hp | hs
        · exact absurd hp (isPrefixOf_false_iff.mp hpre')
        · rw [pyReplaceGo_cons_neg new fuel hpre']
          have hlen' : rest.length ≤ fuel := by simpa using hlen
          exact sub_cons c (ih hs hlen')

theorem pyReplace_sub_new {old new t : Buf} (hold : old ≠ []) (h : Sub old t) :
    Sub new (pyReplace old new t) :=
  sub_new_pyReplaceGo hold t.length h le_rfl

/-- Backward transfer of prefixes: under the overlap side conditions, a
non-empty suffix `q` of the tracked string `s` that is a prefix of the
output was already a prefix of the input. -/
theorem pyReplaceGo_pre_back {old new s : Buf}
    (hC : noTailHead s new = true)
    (hD : containsB new s = false) (fuel : Nat) :
    ∀ {t q : Buf}, q ≠ [] → SufOf q s →
      PreOf q (pyReplaceGo old new fuel t) → PreOf q t := by
  induction fuel with
  | zero =>
    intro t q _ _ hq
    rwa [pyReplaceGo_zero] at hq
  | succ fuel ih =>
    intro t q hq0 hqs hqp
    cases t with
    | nil =>
      rw [pyReplaceGo_nil] at hqp
      rcases hqp with ⟨u, hu⟩
      rcases List.append_eq_nil.mp hu.symm with ⟨rfl, -⟩
      exact absurd rfl hq0
    | cons c rest =>
      by_cases hpre : old.isPrefixOf (c :: rest) = true
      · rw [pyReplaceGo_cons_pos new fuel hpre] at hqp
        rcases preOf_append_cases hqp with hqn | ⟨v, rfl, -⟩
        · exact absurd hqn (fun hp => noTailHead_spec hC hq0 hqs hp)
        · exfalso
          rcases hqs with ⟨w, hw⟩
          exact (containsB_false_iff.mp hD) ⟨w, v, by simpa using hw⟩
      · have hpre' : old.isPrefixOf (c :: rest) = false := bool_eq_false hpre
        rw [pyReplaceGo_cons_neg new fuel hpre'] at hqp
        cases q with
        | nil => exact absurd rfl hq0
        | cons d q' =>
          rcases hqp with ⟨u, hu⟩
          injection hu with h1 h2
          subst h1
          rcases eq_or_ne q' [] with rfl | hq'0
          · exact ⟨rest, rfl⟩
          · have hq's : SufOf q' s := by
              rcases hqs with ⟨w, hw⟩
              exact ⟨w ++ [c], by simpa using hw⟩
            rcases ih hq'0 hq's ⟨u, h2⟩ with ⟨w, hw⟩
            exact ⟨w, by simp [hw]⟩

/-- Non-creation: if `s` does not occur in the input, and `s` cannot
straddle or sit inside an inserted copy of `new`, then `s` does not occur
in the output. -/
theorem not_sub_pyReplaceGo {old new s : Buf} (hs0 : s ≠ [])
    (hB : noHeadTail s new = true)
    (hC : noTailHead s new = true)
    (hD : containsB new s = false)
    (hE : containsB s new = false) (fuel : Nat) :
    ∀ {t : Buf}, ¬ Sub s t → ¬ Sub s (pyReplaceGo old new fuel t) := by
  induction fuel with
  | zero =>
    intro t h
    rwa [pyReplaceGo_zero]
  | succ fuel ih =>
    intro t h
    cases t with
    | nil => rwa [pyReplaceGo_nil]
    | cons c rest =>
      by_cases hpre : old.isPrefixOf (c :: rest) = true
      · rw [pyReplaceGo_cons_pos new fuel hpre]
        intro hcon
        rcases sub_append_cases hcon with h1 | h2 | ⟨u, v, rfl, hu0, -, hus, -⟩
        · exact (containsB_false_iff.mp hE) h1
        · have hnd : ¬ Sub s (rest.drop (old.length - 1)) := fun hs =>
            h (sub_cons c (sub_of_sub_drop _ hs))
          exact ih hnd h2
        · exact noHeadTail_spec hB hu0 ⟨v, rfl⟩ hus
      · have hpre' : old.isPrefixOf (c :: rest) = false := bool_eq_false hpre
        rw [pyReplaceGo_cons_neg new fuel hpre']
        intro hcon
        rcases sub_cons_elim hcon with hp | hssub
        · cases s with
          | nil => exact hs0 rfl
          | cons d s' =>
            rcases hp with ⟨u, hu⟩
            injection hu with h1 h2
            subst h1
            rcases eq_or_ne s' [] with rfl | hs'0
            · exact h (sub_of_preOf ⟨rest, rfl⟩)
            · have hs's : SufOf s' (c :: s') := ⟨[c], rfl⟩
              have := pyReplaceGo_pre_back hC hD fuel hs'0 hs's ⟨u, h2⟩
              rcases this with ⟨w, hw⟩
              exact h (sub_of_preOf ⟨w, by simp [hw]⟩)
        · exact ih (fun hs => h (sub_cons c hs)) hssub

theorem pyReplace_not_sub {old new s t : Buf} (hs0 : s ≠ [])
    (hB : noHeadTail s new = true) (hC : noTailHead s new = true)
    (hD : containsB new s = false) (hE : containsB s new = false)
    (h : ¬ Sub s t) : ¬ Sub s (pyReplace old new t) :=
  not_sub_pyReplaceGo hs0 hB hC hD hE t.length h

/-- Elimination: under the self-overlap side conditions, no occurrence of
`old` survives the replacement. -/
theorem not_old_pyReplaceGo {old new : Buf} (hold : old ≠ [])
    (hB : noHeadTail old new = true)
    (hC : noTailHead old new = true)
    (hD : containsB new old = false)
    (hE : containsB old new = false) (fuel : Nat) :
    ∀ {t : Buf}, t.length ≤ fuel → ¬ Sub old (pyReplaceGo old new fuel t) := by
  induction fuel with
  | zero =>
    intro t hlen
    have ht : t = [] := List.length_eq_zero.mp (Nat.le_zero.mp hlen)
    subst ht
    rw [pyReplaceGo_zero]
    exact fun hs => hold (sub_nil_elim hs)
  | succ fuel ih =>
    intro t hlen
    cases t with
    | nil =>
      rw [pyReplaceGo_nil]
      exact fun hs => hold (sub_nil_elim hs)
    | cons c rest =>
      by_cases hpre : old.isPrefixOf (c :: rest) = true
      · rw [pyReplaceGo_cons_pos new fuel hpre]
        intro hcon
        rcases sub_append_cases hcon with h1 | h2 | ⟨u, v, hofs, hu0, -, hus, -⟩
        · exact (containsB_false_iff.mp hE) h1
        · have hlen' : (rest.drop (old.length - 1)).length ≤ fuel := by
            have : rest.length ≤ fuel := by simpa using hlen
            have := List.length_drop (old.length - 1) rest
            omega
          exact ih hlen' h2
        · exact noHeadTail_spec hB hu0 ⟨v, hofs⟩ hus
      · have hpre' : old.isPrefixOf (c :: rest) = false := bool_eq_false hpre
        rw [pyReplaceGo_cons_neg new fuel hpre']
        intro hcon
        rcases sub_cons_elim hcon with hp | hssub
        · cases old with
          | nil => exact hold rfl
          | cons d s' =>
            rcases hp with ⟨u, hu⟩
            injection hu with h1 h2
            subst h1
            rcases eq_or_ne s' [] with rfl | hs'0
            · rw [isPrefixOf_false_iff] at hpre'
              exact hpre' ⟨rest, rfl⟩
            · have hs's : SufOf s' (c :: s') := ⟨[c], rfl⟩
              have := pyReplaceGo_pre_back hC hD fuel hs'0 hs's ⟨u, h2⟩
              rcases this with ⟨w, hw⟩
              rw [isPrefixOf_false_iff] at hpre'
              exact hpre' ⟨w, by simp [hw]⟩
        · have hlen' : rest.length ≤ fuel := by simpa using hlen
          exact ih hlen' hssub

theorem pyReplace_not_old {old new t : Buf} (hold : old ≠ [])
    (hB : noHeadTail old new = true) (hC : noTailHead old new = true)
    (hD : containsB new old = false) (hE : containsB old new = false) :
    ¬ Sub old (pyReplace old new t) :=
  not_old_pyReplaceGo hold hB hC hD hE t.length le_rfl

/-- Forward transfer of prefixes: if `a` is a suffix of a string `s` that
cannot overlap an occurrence of `old`, prefixes survive replacement. -/
theorem pyReplaceGo_pre_fwd {old new s : Buf}
    (h2 : noTailHead s old = true)
    (h4 : containsB old s = false) :
    ∀ {a : Buf} (fuel : Nat) {t : Buf}, SufOf a s → PreOf a t →
      PreOf a (pyReplaceGo old new fuel t) := by
  intro a
  induction a with
  | nil => intro fuel t _ _; exact preOf_nil _
  | cons c a' ih =>
    intro fuel t hsuf hpre
    rcases hpre with ⟨u, rfl⟩
    simp only [List.cons_append]
    cases fuel with
    | zero => rw [pyReplaceGo_zero]; exact ⟨u, rfl⟩
    | succ fuel =>
      have hnp : old.isPrefixOf (c :: (a' ++ u)) = false := by
        rw [isPrefixOf_false_iff]
        intro hop
        have hca : PreOf (c :: a') (c :: (a' ++ u)) := ⟨u, rfl⟩
        rcases Nat.le_total old.length (c :: a').length with hle | hle
        · have : PreOf old (c :: a') := preOf_of_preOf_le hop hca hle
          exact (containsB_false_iff.mp h4) (sub_trans (sub_of_preOf this) (sub_of_sufOf hsuf))
        · have : PreOf (c :: a') old := preOf_of_preOf_le hca hop hle
          exact noTailHead_spec h2 (by simp) hsuf this
      rw [pyReplaceGo_cons_neg new fuel hnp]
      have hsuf' : SufOf a' s := by
        rcases hsuf with ⟨w, hw⟩
        exact ⟨w ++ [c], by simpa using hw⟩
      rcases ih fuel hsuf' ⟨u, rfl⟩ with ⟨w, hw⟩
      exact ⟨w, by simp [hw]⟩

/-- Preservation: an occurrence of `s` that cannot overlap any occurrence
of `old` survives the replacement. -/
theorem sub_pyReplaceGo_keep {old new s : Buf} (hold : old ≠ [])
    (h1 : noTailHead old s = true)
    (h2 : noTailHead s old = true)
    (h3 : containsB s old = false)
    (h4 : containsB old s = false) (fuel : Nat) :
    ∀ {t : Buf}, t.length ≤ fuel → Sub s t →
      Sub s (pyReplaceGo old new fuel t) := by
  induction fuel with
  | zero =>
    intro t hlen hsub
    rwa [pyReplaceGo_zero]
  | succ fuel ih =>
    intro t hlen hsub
    cases t with
    | nil => rwa [pyReplaceGo_nil]
    | cons c rest =>
      by_cases hpre : old.isPrefixOf (c :: rest) = true
      · rw [pyReplaceGo_cons_pos new fuel hpre]
        have hop : PreOf old (c :: rest) := isPrefixOf_true_iff.mp hpre
        rcases hop with ⟨t2, ht2⟩
        have hdrop : rest.drop (old.length - 1) = t2 := by
          have h1' : (c :: rest).drop old.length = t2 := by
            rw [ht2]; simp
          cases hq : old.length with
          | zero => exact absurd (List.length_eq_zero.mp hq) hold
          | succ k =>
            rw [hq] at h1'
            simpa using h1'
        have hsub2 : Sub s (old ++ t2) := by rwa [ht2] at hsub
        rcases sub_append_cases hsub2 with hs1 | hs2 | ⟨u, v, rfl, hu0, -, hus, -⟩
        · exact absurd hs1 (containsB_false_iff.mp h3)
        · have hlen2 : t2.length ≤ fuel := by
            have := congrArg List.length ht2
            simp at this hlen
            have hol : 1 ≤ old.length := by
              cases old with
              | nil => exact absurd rfl hold
              | cons _ _ => simp
            omega
          rw [hdrop]
          exact sub_append_left new (ih hlen2 hs2)
        · exact absurd ⟨v, rfl⟩ (fun hp => noTailHead_spec h1 hu0 hus hp)
      · have hpre' : old.isPrefixOf (c :: rest) = false := bool_eq_false hpre
        rcases sub_cons_elim hsub with hp | hs
        · exact sub_of_preOf (pyReplaceGo_pre_fwd h2 h4 (fuel + 1) ⟨[], by simp⟩ hp)
        · rw [pyReplaceGo_cons_neg new fuel hpre']
          have hlen' : rest.length ≤ fuel := by simpa using hlen
          exact sub_cons c (ih hlen' hs)

theorem pyReplace_keep_sub {old new s t : Buf} (hold : old ≠ [])
    (h1 : noTailHead old s = true) (h2 : noTailHead s old = true)
    (h3 : containsB s old = false) (h4 : containsB old s = false)
    (h : Sub s t) : Sub s (pyReplace old new t) :=
  sub_pyReplaceGo_keep hold h1 h2 h3 h4 t.length le_rfl h

end PatchEngine

namespace PatchEngine

/-! ### Split / join on newlines -/

theorem splitNl_ne_nil (B : Buf) : splitNl B ≠ [] := by
  cases B with
  | nil => simp [splitNl]
  | cons c rest =>
    simp only [splitNl]
    by_cases h : c = '\n'
    · simp [h]
    · simp only [h, if_false]
      cases hs : splitNl rest <;> simp

theorem joinNl_cons {S : List Buf} (a : Buf) (h : S ≠ []) :
    joinNl (a :: S) = a ++ '\n' :: joinNl S := by
  cases S with
  | nil => exact absurd rfl h
  | cons b S' => rfl

theorem joinNl_cons_head (c : Char) (l : Buf) (ls : List Buf) :
    joinNl ((c :: l) :: ls) = c :: joinNl (l :: ls) := by
  cases ls with
  | nil => rfl
  | cons x ls' => simp [joinNl]

theorem joinNl_splitNl (B : Buf) : joinNl (splitNl B) = B := by
  induction B with
  | nil => rfl
  | cons c rest ih =>
    by_cases h : c = '\n'
    · subst h
      have h1 : splitNl ('\n' :: rest) = [] :: splitNl rest := by simp [splitNl]
      rw [h1, joinNl_cons _ (splitNl_ne_nil rest), ih]
      rfl
    · cases hs : splitNl rest with
      | nil => exact absurd hs (splitNl_ne_nil rest)
      | cons l ls =>
        have h1 : splitNl (c :: rest) = (c :: l) :: ls := by
          simp [splitNl, h, hs]
        rw [h1, joinNl_cons_head, ← hs, ih]

theorem splitNl_of_no_nl {a : Buf} (h : ∀ c ∈ a, c ≠ '\n') : splitNl a = [a] := by
  induction a with
  | nil => rfl
  | cons c a' ih =>
    have hc : c ≠ '\n' := h c (by simp)
    have ih' := ih (fun x hx => h x (by simp [hx]))
    simp [splitNl, hc, ih']

theorem splitNl_append_no_nl {a : Buf} (h : ∀ c ∈ a, c ≠ '\n') (b : Buf) :
    splitNl (a ++ '\n' :: b) = a :: splitNl b := by
  induction a with
  | nil => simp [splitNl]
  | cons c a' ih =>
    have hc : c ≠ '\n' := h c (by simp)
    have ih' := ih (fun x hx => h x (by simp [hx]))
    simp [splitNl, hc, ih']

theorem splitNl_head_preOf : ∀ (B l : Buf) (ls : List Buf),
    splitNl B = l :: ls → PreOf l B := by
  intro B
  induction B with
  | nil =>
    intro l ls h
    simp [splitNl] at h
    rcases h with ⟨rfl, -⟩
    exact preOf_nil _
  | cons c rest ih =>
    intro l ls h
    by_cases hc : c = '\n'
    · subst hc
      simp [splitNl] at h
      rcases h with ⟨rfl, -⟩
      exact preOf_nil _
    · cases hs : splitNl rest with
      | nil => exact absurd hs (splitNl_ne_nil rest)
      | cons m ms =>
        rw [show splitNl (c :: rest) = (c :: m) :: ms by simp [splitNl, hc, hs]] at h
        injection h with h1 h2
        subst h1
        rcases ih m ms hs with ⟨u, hu⟩
        exact ⟨u, by simp [hu]⟩

theorem mem_splitNl_sub : ∀ (B l : Buf), l ∈ splitNl B → Sub l B := by
  intro B
  induction B with
  | nil =>
    intro l h
    simp [splitNl] at h
    subst h
    exact sub_refl _
  | cons c rest ih =>
    intro l h
    by_cases hc : c = '\n'
    · subst hc
      rw [show splitNl ('\n' :: rest) = [] :: splitNl rest by simp [splitNl]] at h
      rcases List.mem_cons.mp h with rfl | h2
      · exact sub_of_preOf (preOf_nil _)
      · exact sub_cons _ (ih l h2)
    · cases hs : splitNl rest with
      | nil => exact absurd hs (splitNl_ne_nil rest)
      | cons m ms =>
        rw [show splitNl (c :: rest) = (c :: m) :: ms by simp [splitNl, hc, hs]] at h
        rcases List.mem_cons.mp h with rfl | h2
        · exact sub_of_preOf (splitNl_head_preOf (c :: rest) _ ms (by simp [splitNl, hc, hs]))
        · have : l ∈ splitNl rest := by rw [hs]; exact List.mem_cons_of_mem _ h2
          exact sub_cons _ (ih l this)

/-! ### The `skip_continuation` line scanner of patch 6 -/

theorem scanLines_id : ∀ {L : List Buf},
    (∀ l ∈ L, lineTriggers l = false) → scanLines false L = L := by
  intro L h
  induction L with
  | nil => rfl
  | cons l rest ih =>
    have hl := h l (by simp)
    rw [show scanLines false (l :: rest) = l :: scanLines false rest by
      simp [scanLines, hl]]
    rw [ih (fun x hx => h x (by simp [hx]))]

theorem scanLines_skip (mid : List Buf) (term : Buf) (post : List Buf)
    (hmid : ∀ l ∈ mid, stripEndsWith l ',' = true)
    (hterm : stripEndsWith term ',' = false) :
    scanLines true (mid ++ term :: post) = scanLines false post := by
  induction mid with
  | nil => simp [scanLines, hterm]
  | cons m mid' ih =>
    have hm := hmid m (by simp)
    rw [show scanLines true ((m :: mid') ++ term :: post)
        = scanLines true (mid' ++ term :: post) by simp [scanLines, hm]]
    exact ih (fun x hx => hmid x (by simp [hx]))

theorem scanLines_deletes (pre : List Buf) (t : Buf) (mid : List Buf)
    (term : Buf) (post : List Buf)
    (hpre : ∀ l ∈ pre, lineTriggers l = false) (ht : lineTriggers t = true)
    (hmid : ∀ l ∈ mid, stripEndsWith l ',' = true)
    (hterm : stripEndsWith term ',' = false) :
    scanLines false (pre ++ t :: (mid ++ term :: post)) = pre ++ scanLines false post := by
  induction pre with
  | nil =>
    rw [show scanLines false ([] ++ t :: (mid ++ term :: post))
        = scanLines true (mid ++ term :: post) by simp [scanLines, ht]]
    rw [scanLines_skip mid term post hmid hterm]
    rfl
  | cons p pre' ih =>
    have hp := hpre p (by simp)
    rw [show scanLines false ((p :: pre') ++ t :: (mid ++ term :: post))
        = p :: scanLines false (pre' ++ t :: (mid ++ term :: post)) by
      simp [scanLines, hp]]
    rw [ih (fun x hx => hpre x (by simp [hx]))]
    rfl

/-! ### `index` / `rfind` bridges -/

theorem idxOf?_eq_none_iff {pat B : Buf} :
    idxOf? pat B = none ↔ containsB pat B = false := by
  induction B with
  | nil =>
    simp only [idxOf?, containsB]
    cases pat.isPrefixOf ([] : Buf) <;> simp
  | cons c rest ih =>
    simp only [idxOf?, containsB]
    cases h : pat.isPrefixOf (c :: rest) <;> simp [h, ih]

theorem lastIdxOf?_eq_none_iff {pat B : Buf} :
    lastIdxOf? pat B = none ↔ containsB pat B = false := by
  induction B with
  | nil =>
    simp only [lastIdxOf?, containsB]
    cases pat.isPrefixOf ([] : Buf) <;> simp
  | cons c rest ih =>
    cases hl : lastIdxOf? pat rest with
    | some i =>
      have hrest : containsB pat rest = true := by
        cases hcr : containsB pat rest
        · rw [ih.mpr hcr] at hl; cases hl
        · rfl
      constructor
      · intro h
        simp only [lastIdxOf?, hl] at h
        cases h
      · intro h
        simp only [containsB, Bool.or_eq_false_iff] at h
        rw [hrest] at h
        exact absurd h.2 (by simp)
    | none =>
      have hrest : containsB pat rest = false := ih.mp hl
      constructor
      · intro h
        simp only [lastIdxOf?, hl] at h
        simp only [containsB, Bool.or_eq_false_iff]
        refine ⟨?_, hrest⟩
        cases hp : pat.isPrefixOf (c :: rest)
        · rfl
        · rw [hp] at h; simp at h
      · intro h
        simp only [containsB, Bool.or_eq_false_iff] at h
        simp only [lastIdxOf?, hl, h.1]
        simp

end PatchEngine

namespace PatchEngine

/-! ### Characterisation of the `paren_count` scan -/

theorem parenDelta_nil : parenDelta [] = 0 := rfl

theorem parenDelta_open (l : Buf) : parenDelta ('(' :: l) = 1 + parenDelta l := by
  simp [parenDelta]

theorem parenDelta_close (l : Buf) : parenDelta (')' :: l) = -1 + parenDelta l := by
  simp [parenDelta]

theorem parenDelta_other {c : Char} (h1 : c ≠ '(') (h2 : c ≠ ')') (l : Buf) :
    parenDelta (c :: l) = parenDelta l := by
  simp [parenDelta, h1, h2]

theorem parenScanAux_spec : ∀ (l : Buf) (count : Int) (i e : Nat),
    parenScanAux count i l = some e →
    i ≤ e ∧ e - i < l.length ∧ l[e - i]? = some ')' ∧
      count + parenDelta (l.take (e - i + 1)) = 0 ∧
      (∀ j, j < e - i → ¬ (l[j]? = some ')' ∧ count + parenDelta (l.take (j + 1)) = 0)) := by
  intro l
  induction l with
  | nil => intro count i e h; cases h
  | cons c rest ih =>
    intro count i e h
    by_cases hc : c = '('
    · subst hc
      rw [show parenScanAux count i ('(' :: rest) = parenScanAux (count + 1) (i + 1) rest by
        simp [parenScanAux]] at h
      obtain ⟨h1, h2, h3, h4, h5⟩ := ih (count + 1) (i + 1) e h
      have hei : e - i = (e - (i + 1)) + 1 := by omega
      refine ⟨by omega, by simp; omega, ?_, ?_, ?_⟩
      · rw [hei, List.getElem?_cons_succ]
        exact h3
      · rw [hei, List.take_succ_cons, parenDelta_open]
        omega
      · intro j hj
        cases j with
        | zero =>
          rintro ⟨hj1, -⟩
          rw [List.getElem?_cons_zero] at hj1
          exact absurd (Option.some.inj hj1) (by decide)
        | succ j' =>
          rintro ⟨hj1, hj2⟩
          rw [hei] at hj
          refine h5 j' (by omega) ⟨by rwa [List.getElem?_cons_succ] at hj1, ?_⟩
          rw [List.take_succ_cons, parenDelta_open] at hj2
          omega
    · by_cases hcr : c = ')'
      · subst hcr
        by_cases hz : count - 1 = 0
        · rw [show parenScanAux count i (')' :: rest) = some i by
            simp [parenScanAux, hc, hz]] at h
          injection h with he
          subst he
          refine ⟨le_rfl, by simp, ?_, ?_, ?_⟩
          · rw [Nat.sub_self, List.getElem?_cons_zero]
          · rw [Nat.sub_self, List.take_succ_cons, List.take_zero, parenDelta_close,
              parenDelta_nil]
            omega
          · intro j hj
            rw [Nat.sub_self] at hj
            omega
        · rw [show parenScanAux count i (')' :: rest)
            = parenScanAux (count - 1) (i + 1) rest by simp [parenScanAux, hc, hz]] at h
          obtain ⟨h1, h2, h3, h4, h5⟩ := ih (count - 1) (i + 1) e h
          have hei : e - i = (e - (i + 1)) + 1 := by omega
          refine ⟨by omega, by simp; omega, ?_, ?_, ?_⟩
          · rw [hei, List.getElem?_cons_succ]
            exact h3
          · rw [hei, List.take_succ_cons, parenDelta_close]
            omega
          · intro j hj
            cases j with
            | zero =>
              rintro ⟨-, hj2⟩
              rw [List.take_succ_cons, List.take_zero, parenDelta_close,
                parenDelta_nil] at hj2
              omega
            | succ j' =>
              rintro ⟨hj1, hj2⟩
              rw [hei] at hj
              refine h5 j' (by omega) ⟨by rwa [List.getElem?_cons_succ] at hj1, ?_⟩
              rw [List.take_succ_cons, parenDelta_close] at hj2
              omega
      · rw [show parenScanAux count i (c :: rest) = parenScanAux count (i + 1) rest by
          simp [parenScanAux, hc, hcr]] at h
        obtain ⟨h1, h2, h3, h4, h5⟩ := ih count (i + 1) e h
        have hei : e - i = (e - (i + 1)) + 1 := by omega
        refine ⟨by omega, by simp; omega, ?_, ?_, ?_⟩
        · rw [hei, List.getElem?_cons_succ]
          exact h3
        · rw [hei, List.take_succ_cons, parenDelta_other hc hcr]
          omega
        · intro j hj
          cases j with
          | zero =>
            rintro ⟨hj1, -⟩
            rw [List.getElem?_cons_zero] at hj1
            exact hcr (Option.some.inj hj1)
          | succ j' =>
            rintro ⟨hj1, hj2⟩
            rw [hei] at hj
            refine h5 j' (by omega) ⟨by rwa [List.getElem?_cons_succ] at hj1, ?_⟩
            rw [List.take_succ_cons, parenDelta_other hc hcr] at hj2
            omega

/-- Top-level characterisation: a successful scan from position `s` stops
at the first index `e ≥ s` where the character is `)` and the running
depth over `B[s..e]` has returned to zero. -/
theorem parenScan_spec {B : Buf} {s e : Nat} (h : parenScan B s = some e) :
    s ≤ e ∧ e < B.length ∧ B[e]? = some ')' ∧
      parenDelta ((B.drop s).take (e - s + 1)) = 0 ∧
      ∀ j, s ≤ j → j < e →
        ¬ (B[j]? = some ')' ∧ parenDelta ((B.drop s).take (j - s + 1)) = 0) := by
  obtain ⟨h1, h2, h3, h4, h5⟩ := parenScanAux_spec (B.drop s) 0 s e h
  rw [List.length_drop] at h2
  refine ⟨h1, by omega, ?_, by simpa using h4, ?_⟩
  · rw [← show B[s + (e - s)]? = B[e]? by rw [show s + (e - s) = e by omega],
      ← List.getElem?_drop]
    exact h3
  · intro j hjs hje
    rintro ⟨hj3, hj4⟩
    refine h5 (j - s) (by omega) ⟨?_, by simpa using hj4⟩
    rw [List.getElem?_drop, show s + (j - s) = j by omega]
    exact hj3

end PatchEngine

namespace PatchEngine

set_option maxRecDepth 10000

/-! ### Step-level helper lemmas -/

theorem isPrefixOf_append_self (a b : Buf) : a.isPrefixOf (a ++ b) = true :=
  isPrefixOf_true_iff.mpr ⟨b, rfl⟩

/-- Patch 6 is the identity on buffers not containing the upcast token. -/
theorem klein6_id {B : Buf} (h : containsB upcastTok B = false) : klein6 B = B := by
  unfold klein6
  rw [scanLines_id, joinNl_splitNl]
  intro l hl
  cases hcl : containsB upcastTok l
  · simp [lineTriggers, hcl]
  · exfalso
    have hsub : Sub upcastTok B :=
      sub_trans (containsB_true_iff.mp hcl) (mem_splitNl_sub B l hl)
    exact (containsB_false_iff.mp h) hsub

theorem precache1_snd (B : Buf) :
    (precache1 B).2 = [diagOf 1 (containsB precompOld B)] := by
  unfold precache1 diagOf
  by_cases h : containsB precompOld B = true
  · rw [if_pos h, if_pos h]
  · rw [if_neg h, if_neg h]

theorem precache2_snd (B : Buf) :
    (precache2 B).2 = [diagOf 2 (containsB cleanupOld B)] := by
  unfold precache2 diagOf
  by_cases h : containsB cleanupOld B = true
  · rw [if_pos h, if_pos h]
  · rw [if_neg h, if_neg h]

theorem precache2b_snd (B : Buf) :
    (precache2b B).2 = [diagOf 3 (containsB delOld B)] := by
  unfold precache2b diagOf
  by_cases h : containsB delOld B = true
  · rw [if_pos h, if_pos h]
  · rw [if_neg h, if_neg h]

theorem precache3_snd (B : Buf) :
    (precache3 B).2 = [diagOf 4 (reSearch B).isSome] := by
  unfold precache3 diagOf
  cases h : reSearch B with
  | none => simp
  | some se => cases se with | mk s e => simp

theorem indentAt_no_nl (B : Buf) (p : Nat) : ∀ c ∈ indentAt B p, c ≠ '\n' := by
  intro c hc hcn
  have := List.mem_takeWhile_imp hc
  rw [hcn] at this
  exact absurd this (by decide)

/-- The split of precache-3's replacement into its four lines. -/
theorem splitNl_precacheRepl {ind : Buf} (h : ∀ c ∈ ind, c ≠ '\n') :
    splitNl (precacheRepl ind) =
      ["if train_dataset.custom_instance_prompts:".toList,
       ind ++ "    with torch.no_grad():".toList,
       ind ++ "        with offload_models(text_encoding_pipeline, device=accelerator.device, offload=args.offload):".toList,
       ind ++ "            prompt_embeds, text_ids = compute_text_embeddings(batch[\"prompts\"], text_encoding_pipeline)".toList] := by
  have hB : ∀ c ∈ "    with torch.no_grad():".toList, c ≠ '\n' := by decide
  have hC : ∀ c ∈ "        with offload_models(text_encoding_pipeline, device=accelerator.device, offload=args.offload):".toList,
      c ≠ '\n' := by decide
  have hD : ∀ c ∈ "            prompt_embeds, text_ids = compute_text_embeddings(batch[\"prompts\"], text_encoding_pipeline)".toList,
      c ≠ '\n' := by decide
  have hiB : ∀ c ∈ ind ++ "    with torch.no_grad():".toList, c ≠ '\n' := by
    intro c hc
    rcases List.mem_append.mp hc with h1 | h1
    · exact h c h1
    · exact hB c h1
  have hiC : ∀ c ∈ ind ++ "        with offload_models(text_encoding_pipeline, device=accelerator.device, offload=args.offload):".toList,
      c ≠ '\n' := by
    intro c hc
    rcases List.mem_append.mp hc with h1 | h1
    · exact h c h1
    · exact hC c h1
  have hiD : ∀ c ∈ ind ++ "            prompt_embeds, text_ids = compute_text_embeddings(batch[\"prompts\"], text_encoding_pipeline)".toList,
      c ≠ '\n' := by
    intro c hc
    rcases List.mem_append.mp hc with h1 | h1
    · exact h c h1
    · exact hD c h1
  unfold precacheRepl
  rw [splitNl_append_no_nl (by decide), splitNl_append_no_nl hiB,
    splitNl_append_no_nl hiC, splitNl_of_no_nl hiD]

end PatchEngine

namespace PatchEngine

set_option maxRecDepth 10000

/-! ### Claim theorems -/

/-- C1 (counterexample): on a buffer containing none of the six anchors,
the lora-to-full run completes but prints only two diagnostic lines
(the unconditional ones of patches 1 and 6) for its six patches, and no
Skipped/warning line for any of the six misses — refuting "exactly one
diagnostic line is emitted per patch, with a Skipped/warning message for
each patch that did not apply". -/
theorem C1_counterexample :
    kleinRun tinyBuf = some (tinyBuf, [Diag.applied 1, Diag.applied 6]) ∧
    containsB reqGradOld tinyBuf = false ∧
    containsB loraCfgAnchor tinyBuf = false ∧
    containsB saveSig tinyBuf = false ∧
    containsB loadSig tinyBuf = false ∧
    containsB slwAnchor tinyBuf = false ∧
    containsB upcastTok tinyBuf = false := by decide

/-- C1 (amended): the disable-precache run always completes and emits
exactly one diagnostic line per patch, in patch order, an applied line
when the anchor is found and a warning line otherwise. -/
theorem C1_amended (B : Buf) :
    (precacheRun B).2 =
      [diagOf 1 (containsB precompOld B),
       diagOf 2 (containsB cleanupOld (precache1 B).1),
       diagOf 3 (containsB delOld (precache2 (precache1 B).1).1),
       diagOf 4 (reSearch (precache2b (precache2 (precache1 B).1).1).1).isSome] := by
  have h : (precacheRun B).2 =
      (precache1 B).2 ++ (precache2 (precache1 B).1).2 ++
      (precache2b (precache2 (precache1 B).1).1).2 ++
      (precache3 (precache2b (precache2 (precache1 B).1).1).1).2 := rfl
  rw [h, precache1_snd, precache2_snd, precache2b_snd, precache3_snd]
  rfl

/-- C2 (counterexample): patch 1's anchor is absent from `tinyBuf`, the
buffer is indeed left unchanged, but the run's diagnostic for patch 1 is
the unconditional applied-style line — no diagnostic marks the patch as
not applied. -/
theorem C2_counterexample :
    containsB reqGradOld tinyBuf = false ∧
    kleinRun tinyBuf = some (tinyBuf, [Diag.applied 1, Diag.applied 6]) := by decide

/-- C2 (amended): for every patch of either set, a missing anchor leaves
the buffer byte-for-byte unchanged; the disable-precache patches
additionally report the miss with a warning diagnostic, while the
lora-to-full steps emit no diagnostic (patches 2–5) or an unconditional
applied-style one (patches 1 and 6). -/
theorem C2_amended (B : Buf) :
    (containsB reqGradOld B = false → klein1 B = B) ∧
    (containsB loraCfgAnchor B = false → klein2 B = some (B, [])) ∧
    (containsB saveSig B = false → klein3 B = some (B, [])) ∧
    (containsB loadSig B = false → klein4 B = some (B, [])) ∧
    (containsB slwAnchor B = false → klein5 B = some (B, [])) ∧
    (containsB upcastTok B = false → klein6 B = B) ∧
    (containsB precompOld B = false → precache1 B = (B, [Diag.warning 1])) ∧
    (containsB cleanupOld B = false → precache2 B = (B, [Diag.warning 2])) ∧
    (containsB delOld B = false → precache2b B = (B, [Diag.warning 3])) ∧
    (reSearch B = none → precache3 B = (B, [Diag.warning 4])) := by
  refine ⟨?_, ?_, ?_, ?_, ?_, ?_, ?_, ?_, ?_, ?_⟩
  · intro h
    show pyReplace reqGradOld reqGradNew B = B
    exact pyReplace_of_not_sub (containsB_false_iff.mp h)
  · intro h; simp only [klein2, idxOf?_eq_none_iff.mpr h]
  · intro h; simp only [klein3, idxOf?_eq_none_iff.mpr h]
  · intro h; simp only [klein4, idxOf?_eq_none_iff.mpr h]
  · intro h; simp only [klein5, lastIdxOf?_eq_none_iff.mpr h]
  · exact klein6_id
  · intro h; simp [precache1, h]
  · intro h; simp [precache2, h]
  · intro h; simp [precache2b, h]
  · intro h; simp only [precache3, h]

theorem C2_amended_witness :
    klein1 tinyBuf = tinyBuf ∧ klein2 tinyBuf = some (tinyBuf, []) ∧
    klein3 tinyBuf = some (tinyBuf, []) ∧ klein4 tinyBuf = some (tinyBuf, []) ∧
    klein5 tinyBuf = some (tinyBuf, []) ∧ klein6 tinyBuf = tinyBuf ∧
    precache1 tinyBuf = (tinyBuf, [Diag.warning 1]) ∧
    precache2 tinyBuf = (tinyBuf, [Diag.warning 2]) ∧
    precache2b tinyBuf = (tinyBuf, [Diag.warning 3]) ∧
    precache3 tinyBuf = (tinyBuf, [Diag.warning 4]) :=
  ⟨(C2_amended tinyBuf).1 (by decide), (C2_amended tinyBuf).2.1 (by decide),
   (C2_amended tinyBuf).2.2.1 (by decide), (C2_amended tinyBuf).2.2.2.1 (by decide),
   (C2_amended tinyBuf).2.2.2.2.1 (by decide), (C2_amended tinyBuf).2.2.2.2.2.1 (by decide),
   (C2_amended tinyBuf).2.2.2.2.2.2.1 (by decide),
   (C2_amended tinyBuf).2.2.2.2.2.2.2.1 (by decide),
   (C2_amended tinyBuf).2.2.2.2.2.2.2.2.1 (by decide),
   (C2_amended tinyBuf).2.2.2.2.2.2.2.2.2 (by decide)⟩

/-- C3: on the specification's five-line example the upcast deletion pass
removes nothing at all — the suppression trigger requires
`upcast_before_saving` and `add_argument` on the same line, but they sit
on consecutive lines, so the output still contains all four
`add_argument` lines instead of only `next_line_kept = True`. -/
theorem C3_code_behavior :
    klein6 fiveBuf = fiveBuf ∧
    containsB upcastTok (klein6 fiveBuf) = true ∧
    containsB addArgTok (klein6 fiveBuf) = true := by decide

/-- C4 (counterexample): re-running disable-precache on its own output
changes the buffer again, with precache-2 re-applied and the other three
patches missing — a strict subset re-applies, refuting the idempotence
boundary. -/
theorem C4_counterexample :
    (precacheRun (precacheRun precacheSelfBuf).1).1 ≠ (precacheRun precacheSelfBuf).1 ∧
    (precacheRun (precacheRun precacheSelfBuf).1).2 =
      [Diag.warning 1, Diag.applied 2, Diag.warning 3, Diag.warning 4] := by decide

/-- C4 (amended): precache-2's replacement still contains its own anchor,
so whenever the patch applies its output still matches the anchor and a
rerun of the patch reports `Applied` again instead of every patch being
skipped. -/
theorem C4_amended (B : Buf) (h : containsB cleanupOld B = true) :
    containsB cleanupOld (precache2 B).1 = true ∧
    (precache2 (precache2 B).1).2 = [Diag.applied 2] := by
  have h1 : containsB cleanupOld (precache2 B).1 = true := by
    unfold precache2
    rw [if_pos h, containsB_true_iff]
    exact sub_trans
      (containsB_true_iff.mp (by decide : containsB cleanupOld cleanupNew = true))
      (pyReplace_sub_new (by decide) (containsB_true_iff.mp h))
  refine ⟨h1, ?_⟩
  rw [precache2_snd, h1]
  rfl

theorem C4_amended_witness :
    containsB cleanupOld (precache2 precacheSelfBuf).1 = true ∧
    (precache2 (precache2 precacheSelfBuf).1).2 = [Diag.applied 2] :=
  C4_amended precacheSelfBuf (by decide)

/-- C5 (counterexample): with two occurrences of patch 1's anchor,
`str.replace` rewrites both — the later occurrence is not left
unchanged. -/
theorem C5_counterexample :
    klein1 dupBuf = reqGradNew ++ '\n' :: reqGradNew ∧
    containsB reqGradOld (klein1 dupBuf) = false := by decide

/-- C5 (amended): an exact-literal patch implemented with `str.replace`
rewrites every occurrence of the anchor: the replacement text occurs in
the output and no occurrence of the anchor survives. -/
theorem C5_amended (B : Buf) (h : containsB reqGradOld B = true) :
    containsB reqGradNew (klein1 B) = true ∧
    containsB reqGradOld (klein1 B) = false := by
  constructor
  · rw [containsB_true_iff]
    show Sub reqGradNew (pyReplace reqGradOld reqGradNew B)
    exact pyReplace_sub_new (by decide) (containsB_true_iff.mp h)
  · rw [containsB_false_iff]
    show ¬ Sub reqGradOld (pyReplace reqGradOld reqGradNew B)
    exact pyReplace_not_old (by decide) (by decide) (by decide) (by decide) (by decide)

theorem C5_amended_witness :
    containsB reqGradNew (klein1 dupBuf) = true ∧
    containsB reqGradOld (klein1 dupBuf) = false :=
  C5_amended dupBuf (by decide)

/-- C6 (counterexample): precache-2 on an eight-space-indented anchor: the
splice equation holds, the indentation captured from the span's first
line is eight spaces, but the second line of the replacement starts with
the fixed four-space indent, not with the captured indentation. -/
theorem C6_counterexample :
    (precache2 indBuf).1 =
      indBuf.take 8 ++ cleanupNew ++ indBuf.drop (8 + cleanupOld.length) ∧
    indentAt indBuf 8 = eightSp ∧
    (splitNl cleanupNew).getD 1 [] ≠ [] ∧
    eightSp.isPrefixOf ((splitNl cleanupNew).getD 1 []) = false := by decide

/-- C6 (amended): for the regex patch precache-3, when the locator finds
span `[s, e)` the result is exactly `B[:s] ++ replacement ++ B[e:]`, and
every line of the replacement after the first begins with the
indentation captured from the span's first line. -/
theorem C6_amended (B : Buf) (s e : Nat) (h : reSearch B = some (s, e)) :
    (precache3 B).1 = B.take s ++ precacheRepl (indentAt B s) ++ B.drop e ∧
    ∀ l ∈ (splitNl (precacheRepl (indentAt B s))).tail,
      (indentAt B s).isPrefixOf l = true := by
  constructor
  · simp only [precache3, h]
  · rw [splitNl_precacheRepl (indentAt_no_nl B s)]
    intro l hl
    simp only [List.tail_cons, List.mem_cons, List.mem_singleton,
      List.not_mem_nil, or_false] at hl
    rcases hl with rfl | rfl | rfl
    · exact isPrefixOf_append_self _ _
    · exact isPrefixOf_append_self _ _
    · exact isPrefixOf_append_self _ _

theorem C6_amended_witness :
    (precache3 reBuf).1 =
      reBuf.take 4 ++ precacheRepl (indentAt reBuf 4) ++ reBuf.drop 135 ∧
    ∀ l ∈ (splitNl (precacheRepl (indentAt reBuf 4))).tail,
      (indentAt reBuf 4).isPrefixOf l = true :=
  C6_amended reBuf 4 135 (by decide)

/-- C7: whenever the balanced-delimiter scan started at the
`save_lora_weights(` anchor succeeds, the returned index points at a `)`
at which the running depth counter first returns to zero — i.e. the
closing parenthesis matching the anchor's first opening parenthesis, not
the first `)` encountered. -/
theorem C7_theorem (B : Buf) (s e : Nat)
    (_hanchor : lastIdxOf? slwAnchor B = some s)
    (h : parenScan B s = some e) :
    B[e]? = some ')' ∧
    parenDelta ((B.drop s).take (e - s + 1)) = 0 ∧
    ∀ j, s ≤ j → j < e →
      ¬ (B[j]? = some ')' ∧ parenDelta ((B.drop s).take (j - s + 1)) = 0) := by
  obtain ⟨-, -, h3, h4, h5⟩ := parenScan_spec h
  exact ⟨h3, h4, h5⟩

theorem C7_witness :
    parenScan parenBuf 4 = some 57 ∧
    parenBuf[57]? = some ')' ∧
    parenDelta ((parenBuf.drop 4).take (57 - 4 + 1)) = 0 ∧
    ∀ j, 4 ≤ j → j < 57 →
      ¬ (parenBuf[j]? = some ')' ∧ parenDelta ((parenBuf.drop 4).take (j - 4 + 1)) = 0) :=
  ⟨by decide, C7_theorem parenBuf 4 57 (by decide) (by decide)⟩

/-- C8: on a buffer containing patch 1's anchor and none of the other
anchors, the lora-to-full run succeeds, the output is exactly the
buffer with the anchor replaced (so it contains
`transformer.requires_grad_(True)`), and the report carries exactly one
applied diagnostic for patch 1. -/
theorem C8_theorem (B : Buf)
    (h1 : containsB reqGradOld B = true)
    (h2 : containsB loraCfgAnchor B = false)
    (h3 : containsB saveSig B = false)
    (h4 : containsB loadSig B = false)
    (h5 : containsB slwAnchor B = false)
    (h6 : containsB upcastTok B = false) :
    kleinRun B = some (klein1 B, [Diag.applied 1, Diag.applied 6]) ∧
    containsB reqGradNew (klein1 B) = true := by
  have h2' : containsB loraCfgAnchor (klein1 B) = false := by
    rw [containsB_false_iff]
    show ¬ Sub loraCfgAnchor (pyReplace reqGradOld reqGradNew B)
    exact pyReplace_not_sub (by decide) (by decide) (by decide) (by decide) (by decide)
      (containsB_false_iff.mp h2)
  have h3' : containsB saveSig (klein1 B) = false := by
    rw [containsB_false_iff]
    show ¬ Sub saveSig (pyReplace reqGradOld reqGradNew B)
    exact pyReplace_not_sub (by decide) (by decide) (by decide) (by decide) (by decide)
      (containsB_false_iff.mp h3)
  have h4' : containsB loadSig (klein1 B) = false := by
    rw [containsB_false_iff]
    show ¬ Sub loadSig (pyReplace reqGradOld reqGradNew B)
    exact pyReplace_not_sub (by decide) (by decide) (by decide) (by decide) (by decide)
      (containsB_false_iff.mp h4)
  have h5' : containsB slwAnchor (klein1 B) = false := by
    rw [containsB_false_iff]
    show ¬ Sub slwAnchor (pyReplace reqGradOld reqGradNew B)
    exact pyReplace_not_sub (by decide) (by decide) (by decide) (by decide) (by decide)
      (containsB_false_iff.mp h5)
  have h6' : containsB upcastTok (klein1 B) = false := by
    rw [containsB_false_iff]
    show ¬ Sub upcastTok (pyReplace reqGradOld reqGradNew B)
    exact pyReplace_not_sub (by decide) (by decide) (by decide) (by decide) (by decide)
      (containsB_false_iff.mp h6)
  have hk2 : klein2 (klein1 B) = some (klein1 B, []) := by
    simp only [klein2, idxOf?_eq_none_iff.mpr h2']
  have hk3 : klein3 (klein1 B) = some (klein1 B, []) := by
    simp only [klein3, idxOf?_eq_none_iff.mpr h3']
  have hk4 : klein4 (klein1 B) = some (klein1 B, []) := by
    simp only [klein4, idxOf?_eq_none_iff.mpr h4']
  have hk5 : klein5 (klein1 B) = some (klein1 B, []) := by
    simp only [klein5, lastIdxOf?_eq_none_iff.mpr h5']
  constructor
  · simp only [kleinRun, hk2, hk3, hk4, hk5, klein6_id h6']
    rfl
  · rw [containsB_true_iff]
    show Sub reqGradNew (pyReplace reqGradOld reqGradNew B)
    exact pyReplace_sub_new (by decide) (containsB_true_iff.mp h1)

theorem C8_witness :
    kleinRun miniBuf = some (klein1 miniBuf, [Diag.applied 1, Diag.applied 6]) ∧
    containsB reqGradNew (klein1 miniBuf) = true :=
  C8_theorem miniBuf (by decide) (by decide) (by decide) (by decide) (by decide) (by decide)

/-- C9: if the buffer contains the `LoraConfig(` guard anchor but not the
`add_adapter` line, patch 2's inner `code.index` raises an uncaught
`ValueError`, so the run produces no output buffer at all (the write to
`dst` is never reached). -/
theorem C9_theorem (B : Buf)
    (h1 : containsB loraCfgAnchor B = true)
    (h2 : containsB addAdapterAnchor B = false) :
    kleinRun B = none := by
  have h1' : containsB loraCfgAnchor (klein1 B) = true := by
    rw [containsB_true_iff]
    show Sub loraCfgAnchor (pyReplace reqGradOld reqGradNew B)
    exact pyReplace_keep_sub (by decide) (by decide) (by decide) (by decide) (by decide)
      (containsB_true_iff.mp h1)
  have h2' : containsB addAdapterAnchor (klein1 B) = false := by
    rw [containsB_false_iff]
    show ¬ Sub addAdapterAnchor (pyReplace reqGradOld reqGradNew B)
    exact pyReplace_not_sub (by decide) (by decide) (by decide) (by decide) (by decide)
      (containsB_false_iff.mp h2)
  have hk2 : klein2 (klein1 B) = none := by
    cases ho : idxOf? loraCfgAnchor (klein1 B) with
    | none =>
      rw [idxOf?_eq_none_iff.mp ho] at h1'
      cases h1'
    | some start =>
      simp only [klein2, ho, idxOf?_eq_none_iff.mpr h2']
  simp only [kleinRun, hk2]

theorem C9_witness : kleinRun loraOnlyBuf = none :=
  C9_theorem loraOnlyBuf (by decide) (by decide)

/-- C10: whenever the split lines contain a trigger line (both tokens on
one line) followed by comma-continuation lines and then a first line not
ending in a comma, the pass removes the trigger line, the continuation
lines, and that terminating line (whether or not it ends in `)`), keeps
the untriggering lines before it, and continues scanning after it. -/
theorem C10_theorem (B : Buf) (pre mid post : List Buf) (t term : Buf)
    (hsplit : splitNl B = pre ++ t :: (mid ++ term :: post))
    (hpre : ∀ l ∈ pre, lineTriggers l = false)
    (ht : lineTriggers t = true)
    (hmid : ∀ l ∈ mid, stripEndsWith l ',' = true)
    (hterm : stripEndsWith term ',' = false) :
    klein6 B = joinNl (pre ++ scanLines false post) := by
  unfold klein6
  rw [hsplit, scanLines_deletes pre t mid term post hpre ht hmid hterm]

theorem C10_witness :
    klein6 oneLineBuf = joinNl (oneLinePre ++ scanLines false oneLinePost) :=
  C10_theorem oneLineBuf oneLinePre oneLineMid oneLinePost oneLineTrig oneLineTerm
    (by decide) (by decide) (by decide) (by decide) (by decide)

end PatchEngine
